import Mathlib

/-!
# shell-hist: frequency trie and top-k extraction, formalized

Shallow embedding of the core of `shell-hist` (`src/parse.rs`, duplicated in
`src/main.rs`): the frequency trie `Node`, its ingestion operation `chomp`,
the three bounded top-k extraction policies (`top_exclusive`,
`top_inclusive`, `top_inclusive_filt`), and the result-to-display conversion
`ct_node_to_list_line`.

Modelling choices:
* `usize` counters become `Nat` (the program only ever increments them, so
  overflow behaviour is irrelevant at these magnitudes and `usize` arithmetic
  used here is plain addition, multiplication and integer division).
* `BTreeMap<String, Node>` becomes a key-sorted association list
  `List (String × Node)`; iteration order of the source map is ascending key
  order, which is the list order here.
* `BinaryHeap<CtNode>` with the reversed `Ord` on `CtNode` (greatest element
  = least `count`) is modelled by the list of pushed elements; `pop` removes
  an element holding the minimal `count`.
* `f64` percentages become `ℚ`; the `.unwrap()` of `first()` in
  `ct_node_to_list_line` is modelled by an `Option` result, `none` being the
  panic.
-/

/-- Structure `CtNode` (src/parse.rs): a post-processed partial/full command with an
associated non-specific count. -/
structure CtNode where
  count : Nat
  full_text : String
deriving DecidableEq, Repr

/-- Structure `Line` (src/parse.rs): a `CtNode` that knows its rank. `pct` is the `f64`
ratio, modelled as a rational. -/
structure Line where
  pct : ℚ
  node : CtNode
deriving DecidableEq, Repr

/-- Structure `Node` (src/parse.rs): a recursive structure counting how often it has
been called (`count_exact`) and how often itself + all children have been
called (`count_inclusive`). `children` models `BTreeMap<String, Node>` as a
key-sorted association list. -/
inductive Node : Type where
  | mk (children : List (String × Node)) (count_inclusive : Nat) (count_exact : Nat)
deriving Repr

/-- Constructor `Node::new`. -/
def Node.new : Node := .mk [] 0 0

def Node.children : Node → List (String × Node)
  | .mk cs _ _ => cs

def Node.count_inclusive : Node → Nat
  | .mk _ ci _ => ci

def Node.count_exact : Node → Nat
  | .mk _ _ ce => ce

@[simp] theorem Node.children_mk (cs : List (String × Node)) (ci ce : Nat) :
    (Node.mk cs ci ce).children = cs := rfl

@[simp] theorem Node.count_inclusive_mk (cs : List (String × Node)) (ci ce : Nat) :
    (Node.mk cs ci ce).count_inclusive = ci := rfl

@[simp] theorem Node.count_exact_mk (cs : List (String × Node)) (ci ce : Nat) :
    (Node.mk cs ci ce).count_exact = ce := rfl

/-- Operation `BTreeMap::get` / `contains_key`: the value stored at key `t`, if any. -/
def findChild : List (String × Node) → String → Option Node
  | [], _ => none
  | (k, c) :: rest, t => if t = k then some c else findChild rest t

/-- The child at key `t`, a fresh `Node::new` when absent: the source inserts
`Node::new()` when `!contains_key` and then works on `get_mut(..).unwrap()`. -/
def getChild (cs : List (String × Node)) (t : String) : Node :=
  (findChild cs t).getD Node.new

/-- Lexicographic order on codepoint lists: the order `Ord for String` uses
in Rust (byte-lexicographic UTF-8 order coincides with codepoint
lexicographic order). -/
def charListLt : List Char → List Char → Bool
  | _, [] => false
  | [], _ :: _ => true
  | a :: as, b :: bs =>
    decide (a.toNat < b.toNat) || (a.toNat == b.toNat && charListLt as bs)

/-- Order `Ord for String` in Rust: lexicographic. -/
def stringLt (s t : String) : Bool :=
  charListLt s.data t.data

/-- Operation `BTreeMap::insert` of key `t` with value `c'` into a key-sorted
association list: replace the binding when present, otherwise insert at the
sorted position. -/
def setChild : List (String × Node) → String → Node → List (String × Node)
  | [], t, c' => [(t, c')]
  | (k, c) :: rest, t, c' =>
    if t = k then (k, c') :: rest
    else if stringLt t k then (t, c') :: (k, c) :: rest
    else (k, c) :: setChild rest t c'

/-- Operation `Node::chomp`: recursively chomp string tokens.  Increments this node's
`count_inclusive`; on exhausted tokens also increments `count_exact`,
otherwise recurses into the child keyed by the head token (created fresh when
absent). -/
def Node.chomp (n : Node) : List String → Node
  | [] => .mk n.children (n.count_inclusive + 1) (n.count_exact + 1)
  | t :: ts =>
    .mk (setChild n.children t (Node.chomp (getChild n.children t) ts))
      (n.count_inclusive + 1) n.count_exact

/-- The trie produced by `parse_file`'s ingestion loop: one `chomp` per
already-tokenized history line, starting from `Node::new`. -/
def buildTrie (lines : List (List String)) : Node :=
  lines.foldl Node.chomp Node.new

/-- Operation `str::trim_end` restricted to its use here: drop trailing whitespace. -/
def trimEnd (s : String) : String :=
  ⟨(s.data.reverse.dropWhile Char.isWhitespace).reverse⟩

/-- The minimal `count` present in the heap (the heap's greatest element
under the reversed `Ord for CtNode`, i.e. the one `BinaryHeap::pop`
removes). -/
def minCount : List CtNode → Nat
  | [] => 0
  | [a] => a.count
  | a :: b :: rest => Nat.min a.count (minCount (b :: rest))

/-- Remove the first element holding `count = c`. -/
def removeFirstWithCount (c : Nat) : List CtNode → List CtNode
  | [] => []
  | a :: rest => if a.count = c then rest else a :: removeFirstWithCount c rest

/-- Operation `BinaryHeap::pop` under the reversed `Ord for CtNode`: removes an element
holding the minimal `count`. -/
def heapPop (l : List CtNode) : List CtNode :=
  removeFirstWithCount (minCount l) l

/-- Fuelled form of the trimming loop `while topn.len() > ct { topn.pop(); }`;
each firing iteration shortens the heap by one, so `l.length` fuel always
suffices. -/
def trimGo (ct : Nat) : Nat → List CtNode → List CtNode
  | 0, l => l
  | fuel + 1, l => if ct < l.length then trimGo ct fuel (heapPop l) else l

/-- The loop `while topn.len() > ct { topn.pop(); }`. -/
def trimHeap (ct : Nat) (l : List CtNode) : List CtNode :=
  trimGo ct l.length l

/-- One step of the stable sort `x.sort()` under the reversed
`Ord for CtNode` (ascending in that order = descending by `count`). -/
def insertCt (a : CtNode) : List CtNode → List CtNode
  | [] => [a]
  | b :: rest => if b.count ≤ a.count then a :: b :: rest else b :: insertCt a rest

/-- Sort `x.sort()` under the reversed `Ord for CtNode`: stable, descending by
`count`. -/
def sortCt (l : List CtNode) : List CtNode :=
  l.foldr insertCt []

mutual
/-- Operation `Node::top_exclusive`: the top `ct` items that have been called exactly
(powers `display-exact`). -/
def Node.top_exclusive : Node → Nat → String → List CtNode
  | .mk cs _ _, ct, pre => sortCt (trimHeap ct (exclusiveCands cs ct pre))
  termination_by structural n => n

/-- The sequence of elements pushed onto `topn` by `top_exclusive`'s loop
over `self.children`: for each child in ascending key order, the child's own
recursive result followed by the child's entry with `count = count_exact`. -/
def exclusiveCands : List (String × Node) → Nat → String → List CtNode
  | [], _, _ => []
  | (cmd, node) :: rest, ct, pre =>
    (Node.top_exclusive node ct (pre ++ cmd ++ " ") ++
      [{ count := node.count_exact, full_text := trimEnd (pre ++ cmd ++ " ") }]) ++
    exclusiveCands rest ct pre
  termination_by structural cs => cs
end

mutual
/-- Operation `Node::top_inclusive`: the top `ct` items that have been called or whose
children have been called (powers `display-heat`). -/
def Node.top_inclusive : Node → Nat → String → List CtNode
  | .mk cs _ _, ct, pre => sortCt (trimHeap ct (inclusiveCands cs ct pre))
  termination_by structural n => n

/-- The elements pushed onto `topn` by `top_inclusive`'s loop: each child's
recursive result followed by the child's entry with
`count = count_inclusive`. -/
def inclusiveCands : List (String × Node) → Nat → String → List CtNode
  | [], _, _ => []
  | (cmd, node) :: rest, ct, pre =>
    (Node.top_inclusive node ct (pre ++ cmd ++ " ") ++
      [{ count := node.count_inclusive, full_text := trimEnd (pre ++ cmd ++ " ") }]) ++
    inclusiveCands rest ct pre
  termination_by structural cs => cs
end

/-- The qualification test of `top_inclusive_filt`:
`(node.count_exact != 0) && (((node.count_exact * 10) / node.count_inclusive) >= 1)`. -/
def fuzzyQualifies (node : Node) : Bool :=
  node.count_exact != 0 && decide ((node.count_exact * 10) / node.count_inclusive ≥ 1)

mutual
/-- Operation `Node::top_inclusive_filt`: like `top_inclusive` but filtering out nodes
never directly called (powers `display-fuzzy`). -/
def Node.top_inclusive_filt : Node → Nat → String → List CtNode
  | .mk cs _ _, ct, pre => sortCt (trimHeap ct (filtCands cs ct pre))
  termination_by structural n => n

/-- The elements pushed onto `topn` by `top_inclusive_filt`'s loop: each
child's recursive result, then — only when the child passes the
qualification test — the child's entry with `count = count_inclusive`. -/
def filtCands : List (String × Node) → Nat → String → List CtNode
  | [], _, _ => []
  | (cmd, node) :: rest, ct, pre =>
    (Node.top_inclusive_filt node ct (pre ++ cmd ++ " ") ++
      (if fuzzyQualifies node then
        [{ count := node.count_inclusive, full_text := trimEnd (pre ++ cmd ++ " ") }]
      else [])) ++
    filtCands rest ct pre
  termination_by structural cs => cs
end

/-- Conversion `ct_node_to_list_line` (src/main.rs): computes each entry's `pct`
relative to `in_dat.first().unwrap().count`.  The `unwrap` of `first()`
panics on an empty input, modelled here by `none`. -/
def ct_node_to_list_line (in_dat : List CtNode) : Option (List Line) :=
  match in_dat.head? with
  | none => none
  | some f =>
    some (in_dat.map fun line => { pct := (line.count : ℚ) / (f.count : ℚ), node := line })

/-- Descend from `n` along a path of tokens: the node representing that
prefix, if present.  (Observation function used to state frame properties of
`chomp`; each trie node corresponds to one prefix, §3 of the spec.) -/
def Node.lookup (n : Node) : List String → Option Node
  | [] => some n
  | t :: ps =>
    match findChild n.children t with
    | none => none
    | some c => c.lookup ps

/-- Field `count_inclusive` of an optional node, `0` when absent. -/
def incOf (o : Option Node) : Nat :=
  (o.map Node.count_inclusive).getD 0

/-- Field `count_exact` of an optional node, `0` when absent. -/
def exactOf (o : Option Node) : Nat :=
  (o.map Node.count_exact).getD 0

/-- Sum of the children's `count_inclusive` fields. -/
def sumInc : List (String × Node) → Nat
  | [] => 0
  | (_, c) :: rest => c.count_inclusive + sumInc rest

mutual
/-- Does every node of the (sub)trie rooted at `n`, `n` included, satisfy
`p`? -/
def allNodesB (p : Node → Bool) : Node → Bool
  | .mk cs ci ce => p (.mk cs ci ce) && allChildrenB p cs
  termination_by structural n => n

def allChildrenB (p : Node → Bool) : List (String × Node) → Bool
  | [] => true
  | (_, c) :: rest => allNodesB p c && allChildrenB p rest
  termination_by structural cs => cs
end

/-- Is `t` below the first key of `cs` (vacuously true for no key)?  Chain
link for `keysSortedB`. -/
def keyLtHead (t : String) : List (String × Node) → Bool
  | [] => true
  | (k, _) :: _ => stringLt t k

/-- Are the keys strictly ascending (the `BTreeMap` representation
invariant)? -/
def keysSortedB : List (String × Node) → Bool
  | [] => true
  | (k, _) :: rest => keyLtHead k rest && keysSortedB rest

/-- The counting invariant of §3 of the spec, at one node:
`count_exact ≤ count_inclusive` and `count_inclusive` equals this node's own
`count_exact` plus the sum of the children's `count_inclusive`. -/
def goodCounts (n : Node) : Bool :=
  decide (n.count_exact ≤ n.count_inclusive) &&
    n.count_inclusive == n.count_exact + sumInc n.children

/-- Modelled from the spec (§3, §8): every node of the trie satisfies the
counting invariant. -/
def wellCounted (n : Node) : Bool :=
  allNodesB goodCounts n

/-- Representation invariant of the embedding: every node's child list is
key-sorted (true of every `BTreeMap`) and satisfies the counting
invariant. -/
def trieInv (n : Node) : Bool :=
  allNodesB (fun m => keysSortedB m.children && goodCounts m) n

/-- The `count` fields of an extraction result. -/
def countsOf (l : List CtNode) : List Nat :=
  l.map CtNode.count

/-- Insertion step of a descending sort on `Nat`. -/
def insertNat (a : Nat) : List Nat → List Nat
  | [] => [a]
  | b :: rest => if b ≤ a then a :: b :: rest else b :: insertNat a rest

/-- Descending insertion sort on `Nat`. -/
def sortDescNat (l : List Nat) : List Nat :=
  l.foldr insertNat []

/-- Modelled from the spec (§8 Ordering): the true top-`ct` values of a
collection of scores — sort descending, take the first `ct`. -/
def specTopCounts (ct : Nat) (l : List Nat) : List Nat :=
  (sortDescNat l).take ct

mutual
/-- Modelled from the spec (§8 Ordering): the scores `f` of all qualifying
(`q`) non-root nodes of the subtree rooted at `n` — every strict descendant
of `n` is listed, `n` itself is not. -/
def Node.specMetrics (q : Node → Bool) (f : Node → Nat) : Node → List Nat
  | .mk cs _ _ => specMetricsList q f cs
  termination_by structural n => n

def specMetricsList (q : Node → Bool) (f : Node → Nat) : List (String × Node) → List Nat
  | [] => []
  | (_, c) :: rest =>
    ((if q c then [f c] else []) ++ Node.specMetrics q f c) ++ specMetricsList q f rest
  termination_by structural cs => cs
end

/-- The common shape of the three candidate loops, with the recursive
extractor `T`, the qualification test `q` and the score field `f` abstracted
out (§4.2 of the spec). -/
def candsWith (T : Node → Nat → String → List CtNode) (q : Node → Bool) (f : Node → Nat) :
    List (String × Node) → Nat → String → List CtNode
  | [], _, _ => []
  | (cmd, c) :: rest, ct, pre =>
    (T c ct (pre ++ cmd ++ " ") ++
      (if q c then [{ count := f c, full_text := trimEnd (pre ++ cmd ++ " ") }] else [])) ++
    candsWith T q f rest ct pre

/-- Sorted descending (each later element is at most each earlier one). -/
def SortedDesc (l : List Nat) : Prop :=
  l.Pairwise (fun a b => b ≤ a)

/-- Predicate: `s` is a selection of the `Nat.min ct m.length` largest elements of `m`:
it is a sub-multiset of `m` of that size whose complement is dominated by
every member of `s`. -/
def IsSelection (ct : Nat) (m s : List Nat) : Prop :=
  s.length = Nat.min ct m.length ∧ ∃ r, m.Perm (s ++ r) ∧ ∀ x ∈ r, ∀ y ∈ s, x ≤ y

/-- Predicate: `c` arises from `m` by discarding only elements that still have at least
`ct` members of `c` above them (counting multiplicity): such discards never
change the top `ct`. -/
def SafeShrink (ct : Nat) (m c : List Nat) : Prop :=
  ∃ d, m.Perm (c ++ d) ∧ ∀ x ∈ d, ct ≤ c.countP (fun y => decide (x ≤ y))

/-- The ingestion multiset of the end-to-end example of §8 of the spec:
`["git","status"]` ×5, `["git","commit"]` ×3, `["git"]` ×1, `["ls"]` ×2. -/
def exampleLines : List (List String) :=
  [["git", "status"], ["git", "status"], ["git", "status"], ["git", "status"],
    ["git", "status"], ["git", "commit"], ["git", "commit"], ["git", "commit"],
    ["git"], ["ls"], ["ls"]]

/-! ## Order lemmas for the key order -/

theorem char_eq_of_toNat_eq {a b : Char} (h : a.toNat = b.toNat) : a = b :=
  Char.eq_of_val_eq (UInt32.ext h)

theorem charListLt_nil_right (l : List Char) : charListLt l [] = false := by
  cases l <;> rfl

theorem charListLt_irrefl (l : List Char) : charListLt l l = false := by
  induction l with
  | nil => rfl
  | cons a as ih => simp [charListLt, ih]

theorem charListLt_trans {a : List Char} : ∀ {b c : List Char}, charListLt a b = true →
    charListLt b c = true → charListLt a c = true := by
  induction a with
  | nil =>
    intro b c h₁ h₂
    cases c with
    | nil => rw [charListLt_nil_right] at h₂; cases h₂
    | cons c cs => rfl
  | cons a as ih =>
    intro b c h₁ h₂
    cases b with
    | nil => rw [charListLt_nil_right] at h₁; cases h₁
    | cons b bs =>
      cases c with
      | nil => rw [charListLt_nil_right] at h₂; cases h₂
      | cons c cs =>
        simp only [charListLt, Bool.or_eq_true, decide_eq_true_eq, Bool.and_eq_true,
          beq_iff_eq] at h₁ h₂ ⊢
        rcases h₁ with h₁ | ⟨e₁, t₁⟩
        · rcases h₂ with h₂ | ⟨e₂, t₂⟩
          · exact Or.inl (by omega)
          · exact Or.inl (by omega)
        · rcases h₂ with h₂ | ⟨e₂, t₂⟩
          · exact Or.inl (by omega)
          · exact Or.inr ⟨by omega, ih t₁ t₂⟩

theorem charListLt_eq_of_not {a : List Char} : ∀ {b : List Char}, charListLt a b = false →
    charListLt b a = false → a = b := by
  induction a with
  | nil =>
    intro b h₁ _
    cases b with
    | nil => rfl
    | cons b bs => simp [charListLt] at h₁
  | cons a as ih =>
    intro b h₁ h₂
    cases b with
    | nil => simp [charListLt] at h₂
    | cons b bs =>
      simp only [charListLt, Bool.or_eq_false_iff, decide_eq_false_iff_not,
        Bool.and_eq_false_iff, beq_eq_false_iff_ne, ne_eq] at h₁ h₂
      have e : a.toNat = b.toNat := by omega
      have e' : a = b := char_eq_of_toNat_eq e
      subst e'
      have t₁ : charListLt as bs = false := by
        rcases h₁.2 with h | h
        · exact absurd rfl h
        · exact h
      have t₂ : charListLt bs as = false := by
        rcases h₂.2 with h | h
        · exact absurd rfl h
        · exact h
      rw [ih t₁ t₂]

theorem stringLt_irrefl (s : String) : stringLt s s = false :=
  charListLt_irrefl _

theorem stringLt_trans {s t u : String} (h₁ : stringLt s t = true)
    (h₂ : stringLt t u = true) : stringLt s u = true :=
  charListLt_trans h₁ h₂

theorem stringLt_eq_of_not {s t : String} (h₁ : stringLt s t = false)
    (h₂ : stringLt t s = false) : s = t :=
  String.ext (charListLt_eq_of_not h₁ h₂)

theorem stringLt_asymm {s t : String} (h : stringLt s t = true) : stringLt t s = false := by
  cases h' : stringLt t s with
  | false => rfl
  | true => have := stringLt_trans h h'; rw [stringLt_irrefl] at this; cases this

/-! ## Child-map lemmas -/

theorem findChild_setChild_self (cs : List (String × Node)) (t : String) (c' : Node) :
    findChild (setChild cs t c') t = some c' := by
  induction cs with
  | nil => simp [setChild, findChild]
  | cons kc rest ih =>
    obtain ⟨k, c⟩ := kc
    by_cases h : t = k
    · simp [setChild, findChild, h]
    · by_cases h' : stringLt t k = true
      · simp [setChild, findChild, h, h']
      · simp [setChild, findChild, h, h', ih]

theorem findChild_setChild_other (cs : List (String × Node)) {t u : String} (c' : Node)
    (hne : u ≠ t) : findChild (setChild cs t c') u = findChild cs u := by
  induction cs with
  | nil => simp [setChild, findChild, hne]
  | cons kc rest ih =>
    obtain ⟨k, c⟩ := kc
    by_cases h : t = k
    · subst h
      simp [setChild, findChild, hne]
    · by_cases h' : stringLt t k = true
      · simp [setChild, findChild, hne, h, h']
      · by_cases h'' : u = k
        · simp [setChild, findChild, h, h', h'']
        · simp [setChild, findChild, h, h', h'', ih]

theorem getChild_setChild_self (cs : List (String × Node)) (t : String) (c' : Node) :
    getChild (setChild cs t c') t = c' := by
  simp [getChild, findChild_setChild_self]

theorem getChild_setChild_other (cs : List (String × Node)) {t u : String} (c' : Node)
    (hne : u ≠ t) : getChild (setChild cs t c') u = getChild cs u := by
  simp [getChild, findChild_setChild_other cs c' hne]

theorem setChild_setChild_self (cs : List (String × Node)) (t : String) (a b : Node) :
    setChild (setChild cs t a) t b = setChild cs t b := by
  induction cs with
  | nil => simp [setChild]
  | cons kc rest ih =>
    obtain ⟨k, c⟩ := kc
    by_cases h : t = k
    · simp [setChild, h]
    · by_cases h' : stringLt t k = true
      · simp [setChild, h, h', stringLt_irrefl]
      · simp [setChild, h, h', ih]

theorem stringLt_total {t u : String} (hne : t ≠ u) (h : stringLt u t = false) :
    stringLt t u = true := by
  cases h' : stringLt t u with
  | true => rfl
  | false => exact absurd (stringLt_eq_of_not h' h) hne

theorem setChild_comm (cs : List (String × Node)) {t u : String} (a b : Node) (hne : t ≠ u) :
    setChild (setChild cs t a) u b = setChild (setChild cs u b) t a := by
  induction cs with
  | nil =>
    by_cases h : stringLt u t = true
    · have h' : stringLt t u = false := stringLt_asymm h
      simp [setChild, hne, Ne.symm hne, h, h']
    · have h0 : stringLt u t = false := by simpa using h
      have h' : stringLt t u = true := stringLt_total hne h0
      simp [setChild, hne, Ne.symm hne, h0, h']
  | cons kc rest ih =>
    obtain ⟨k, c⟩ := kc
    by_cases htk : t = k
    · subst htk
      have huk : u ≠ t := Ne.symm hne
      cases hlt : stringLt u t with
      | true =>
        have h' : stringLt t u = false := stringLt_asymm hlt
        simp [setChild, hne, Ne.symm hne, huk, hlt, h']
      | false =>
        simp [setChild, hne, Ne.symm hne, huk, hlt]
    · by_cases huk : u = k
      · subst huk
        have htu : t ≠ u := hne
        cases hlt : stringLt t u with
        | true =>
          have h' : stringLt u t = false := stringLt_asymm hlt
          simp [setChild, hne, Ne.symm hne, htk, hlt, h']
        | false =>
          simp [setChild, hne, Ne.symm hne, htk, hlt]
      · cases hlt₁ : stringLt t k with
        | true =>
          cases hlt₂ : stringLt u k with
          | true =>
            cases hlt₃ : stringLt u t with
            | true =>
              have h' : stringLt t u = false := stringLt_asymm hlt₃
              simp [setChild, hne, Ne.symm hne, htk, huk, hlt₁, hlt₂, hlt₃, h']
            | false =>
              have h' : stringLt t u = true := stringLt_total hne hlt₃
              simp [setChild, hne, Ne.symm hne, htk, huk, hlt₁, hlt₂, hlt₃, h']
          | false =>
            have hlt₃ : stringLt u t = false := by
              cases h : stringLt u t with
              | false => rfl
              | true => rw [stringLt_trans h hlt₁] at hlt₂; cases hlt₂
            simp [setChild, hne, Ne.symm hne, htk, huk, hlt₁, hlt₂, hlt₃]
        | false =>
          cases hlt₂ : stringLt u k with
          | true =>
            have hlt₃ : stringLt t u = false := by
              cases h : stringLt t u with
              | false => rfl
              | true => rw [stringLt_trans h hlt₂] at hlt₁; cases hlt₁
            simp [setChild, hne, Ne.symm hne, htk, huk, hlt₁, hlt₂, hlt₃]
          | false =>
            simp [setChild, hne, Ne.symm hne, htk, huk, hlt₁, hlt₂, ih]

/-! ## Ingestion lemmas -/

theorem chomp_count_inclusive (n : Node) (toks : List String) :
    (n.chomp toks).count_inclusive = n.count_inclusive + 1 := by
  cases toks <;> rfl

theorem chomp_count_exact_nil (n : Node) :
    (n.chomp []).count_exact = n.count_exact + 1 := rfl

theorem chomp_count_exact_cons (n : Node) (t : String) (ts : List String) :
    (n.chomp (t :: ts)).count_exact = n.count_exact := rfl

theorem chomp_children_nil (n : Node) : (n.chomp []).children = n.children := rfl

/-- Ingestion steps commute: chomping two lines in either order produces the
same trie. -/
theorem chomp_comm (a : List String) : ∀ (n : Node) (b : List String),
    (n.chomp a).chomp b = (n.chomp b).chomp a := by
  induction a with
  | nil =>
    intro n b
    cases b with
    | nil => rfl
    | cons u us =>
      cases n with
      | mk cs ci ce => simp [Node.chomp]
  | cons t ts ih =>
    intro n b
    cases b with
    | nil =>
      cases n with
      | mk cs ci ce => simp [Node.chomp]
    | cons u us =>
      cases n with
      | mk cs ci ce =>
        by_cases h : t = u
        · subst h
          simp only [Node.chomp, Node.children_mk, Node.count_inclusive_mk, Node.count_exact_mk,
            getChild_setChild_self, setChild_setChild_self, Node.mk.injEq, and_true]
          rw [ih]
        · simp only [Node.chomp, Node.children_mk, Node.count_inclusive_mk, Node.count_exact_mk,
            getChild_setChild_other cs _ (Ne.symm h), getChild_setChild_other cs _ h,
            Node.mk.injEq, and_true]
          exact setChild_comm cs _ _ h

/-- Folding `chomp` over a list of lines is invariant under permutation of
the lines, from any starting trie. -/
theorem foldl_chomp_perm {l₁ l₂ : List (List String)} (h : l₁.Perm l₂) :
    ∀ n : Node, l₁.foldl Node.chomp n = l₂.foldl Node.chomp n := by
  induction h with
  | nil => intro n; rfl
  | cons x _ ih => intro n; simp only [List.foldl]; exact ih _
  | swap x y l => intro n; simp only [List.foldl]; rw [chomp_comm]
  | trans _ _ ih₁ ih₂ => intro n; rw [ih₁, ih₂]

/-! ## Claim theorems -/

/-- C1: the claim says `ct_node_to_list_line` on an empty input list
produces an empty output list without failure; the code instead reads the
maximum with `in_dat.first().unwrap()`, which panics on an empty list
(modelled by `none`), so the conversion fails rather than returning an empty
list. -/
theorem ct_node_to_list_line_empty_panics :
    ct_node_to_list_line [] = none ∧ ct_node_to_list_line [] ≠ some [] := by
  exact ⟨rfl, by simp [ct_node_to_list_line]⟩

/-- C8: ingesting an empty token sequence does not fail: it increments the
receiving node's `count_inclusive` and `count_exact` by one each and creates
no children. -/
theorem chomp_nil_spec (n : Node) :
    (n.chomp []).count_inclusive = n.count_inclusive + 1 ∧
    (n.chomp []).count_exact = n.count_exact + 1 ∧
    (n.chomp []).children = n.children :=
  ⟨rfl, rfl, rfl⟩

/-- C9: ingestion is commutative across lines: any two orderings of the same
multiset of token sequences, ingested into a new empty trie, produce the
same trie — the same node structure with the same counts at every node. -/
theorem buildTrie_perm_eq {l₁ l₂ : List (List String)} (h : l₁.Perm l₂) :
    buildTrie l₁ = buildTrie l₂ :=
  foldl_chomp_perm h Node.new

/-- Witness for C9 at a concrete permutation. -/
theorem buildTrie_perm_eq_witness :
    buildTrie [["a"], ["b", "c"]] = buildTrie [["b", "c"], ["a"]] :=
  buildTrie_perm_eq (List.Perm.swap ["b", "c"] ["a"] [])

/-! ## Frame properties of ingestion -/

/-- Nodes at non-prefix paths are untouched by `chomp` (absent ones stay
absent, present ones keep counts and children). -/
theorem lookup_chomp_off_path (toks : List String) : ∀ (p : List String) (n : Node),
    ¬ p <+: toks → (n.chomp toks).lookup p = n.lookup p := by
  induction toks with
  | nil =>
    intro p n hp
    cases p with
    | nil => exact absurd ⟨_, rfl⟩ hp
    | cons u ps => cases n with
      | mk cs ci ce => simp [Node.chomp, Node.lookup]
  | cons t ts ih =>
    intro p n hp
    cases p with
    | nil => exact absurd ⟨_, rfl⟩ hp
    | cons u ps =>
      cases n with
      | mk cs ci ce =>
        by_cases hu : u = t
        · subst hu
          have hps : ¬ ps <+: ts := fun h => hp (List.cons_prefix_cons.mpr ⟨rfl, h⟩)
          simp only [Node.chomp, Node.lookup, Node.children_mk]
          rw [findChild_setChild_self]
          dsimp only
          rw [ih ps _ hps]
          cases hf : findChild cs u with
          | some c => simp [getChild, hf]
          | none =>
            simp only [getChild, hf, Option.getD_none]
            cases ps with
            | nil => exact absurd ⟨_, rfl⟩ hps
            | cons v ps' => simp [Node.new, Node.lookup, findChild]
        · simp only [Node.chomp, Node.lookup, Node.children_mk]
          rw [findChild_setChild_other _ _ hu]

/-- Nodes at prefix paths all exist after `chomp`; their `count_inclusive`
rises by exactly one, and `count_exact` rises by one exactly at the terminal
path (missing nodes count as zero, so freshly created path nodes carry
`count_inclusive = 1`). -/
theorem lookup_chomp_on_path (toks : List String) : ∀ (p : List String) (n : Node),
    p <+: toks → ∃ m, (n.chomp toks).lookup p = some m ∧
      m.count_inclusive = incOf (n.lookup p) + 1 ∧
      m.count_exact = exactOf (n.lookup p) + (if p = toks then 1 else 0) := by
  induction toks with
  | nil =>
    intro p n hp
    have : p = [] := List.prefix_nil.mp hp
    subst this
    refine ⟨n.chomp [], rfl, ?_, ?_⟩
    · simp [Node.lookup, incOf, chomp_count_inclusive]
    · simp [Node.lookup, exactOf, chomp_count_exact_nil]
  | cons t ts ih =>
    intro p n hp
    cases p with
    | nil =>
      refine ⟨n.chomp (t :: ts), rfl, ?_, ?_⟩
      · simp [Node.lookup, incOf, chomp_count_inclusive]
      · simp [Node.lookup, exactOf, chomp_count_exact_cons]
    | cons u ps =>
      obtain ⟨he, hps⟩ := List.cons_prefix_cons.mp hp
      subst he
      cases n with
      | mk cs ci ce =>
        simp only [Node.chomp, Node.lookup, Node.children_mk]
        rw [findChild_setChild_self]
        dsimp only
        obtain ⟨m, hm, hmi, hme⟩ := ih ps (getChild cs u) hps
        refine ⟨m, hm, ?_, ?_⟩
        · rw [hmi]
          congr 1
          cases hf : findChild cs u with
          | some c => simp [getChild, hf]
          | none =>
            simp only [getChild, hf, Option.getD_none]
            cases ps with
            | nil => simp [Node.new, Node.lookup, incOf]
            | cons v ps' => simp [Node.new, Node.lookup, findChild, incOf]
        · rw [hme]
          have hiff : (ps = ts) ↔ (u :: ps = u :: ts) := by simp
          rw [if_congr hiff rfl rfl]
          congr 1
          cases hf : findChild cs u with
          | some c => simp [getChild, hf]
          | none =>
            simp only [getChild, hf, Option.getD_none]
            cases ps with
            | nil => simp [Node.new, Node.lookup, exactOf]
            | cons v ps' => simp [Node.new, Node.lookup, findChild, exactOf]

/-- Folding `chomp` raises the root's `count_inclusive` by the number of
lines. -/
theorem foldl_chomp_count_inclusive (lines : List (List String)) : ∀ n : Node,
    (lines.foldl Node.chomp n).count_inclusive = n.count_inclusive + lines.length := by
  induction lines with
  | nil => intro n; simp
  | cons l ls ih =>
    intro n
    simp only [List.foldl, ih, chomp_count_inclusive, List.length_cons]
    omega

/-- C10: a single `chomp` of a token sequence `toks` touches exactly the
prefix-path of `toks`: every node at a non-prefix path is unchanged (counts,
children, existence); every node at a prefix path exists afterwards with
`count_inclusive` incremented by exactly one and `count_exact` incremented
exactly at the terminal node (a missing path node counts as zero, so it is
created carrying `count_inclusive = 1`); a node exists after the `chomp` iff
it existed before or lies on the path; and consequently the root's
`count_inclusive` of an ingested trie equals the number of ingestion
calls. -/
theorem chomp_frame (n : Node) (toks : List String) :
    (∀ p : List String, ¬ p <+: toks → (n.chomp toks).lookup p = n.lookup p) ∧
    (∀ p : List String, p <+: toks → ∃ m, (n.chomp toks).lookup p = some m ∧
      m.count_inclusive = incOf (n.lookup p) + 1 ∧
      m.count_exact = exactOf (n.lookup p) + (if p = toks then 1 else 0)) ∧
    (∀ p : List String, ((n.chomp toks).lookup p).isSome = true ↔
      ((n.lookup p).isSome = true ∨ p <+: toks)) ∧
    (∀ lines : List (List String), (buildTrie lines).count_inclusive = lines.length) := by
  refine ⟨fun p hp => lookup_chomp_off_path toks p n hp,
    fun p hp => lookup_chomp_on_path toks p n hp, fun p => ?_, fun lines => ?_⟩
  · by_cases hp : p <+: toks
    · obtain ⟨m, hm, -, -⟩ := lookup_chomp_on_path toks p n hp
      simp [hm, hp]
    · rw [lookup_chomp_off_path toks p n hp]
      simp [hp]
  · have := foldl_chomp_count_inclusive lines Node.new
    simpa [buildTrie, Node.new] using this

/-- Witness for C10 at concrete inputs. -/
theorem chomp_frame_witness :
    (Node.new.chomp ["a"]).lookup ["b"] = Node.new.lookup ["b"] ∧
    (∃ m, (Node.new.chomp ["a"]).lookup ["a"] = some m ∧
      m.count_inclusive = incOf (Node.new.lookup ["a"]) + 1 ∧
      m.count_exact = exactOf (Node.new.lookup ["a"]) + (if ["a"] = ["a"] then 1 else 0)) ∧
    (buildTrie [["a"], ["b"]]).count_inclusive = 2 :=
  ⟨(chomp_frame Node.new ["a"]).1 ["b"] (by decide),
    (chomp_frame Node.new ["a"]).2.1 ["a"] (by decide),
    (chomp_frame Node.new ["a"]).2.2.2 [["a"], ["b"]]⟩

/-- C6: the end-to-end example of §8: ingesting `["git","status"]` ×5,
`["git","commit"]` ×3, `["git"]` ×1, `["ls"]` ×2 into a new trie yields
exact-policy top-2 `[("git status",5), ("git commit",3)]`, heat-policy top-1
`[("git",9)]`, and fuzzy-policy top-2 `[("git",9), ("git status",5)]`. -/
theorem exampleLines_extractions :
    (buildTrie exampleLines).top_exclusive 2 "" = [⟨5, "git status"⟩, ⟨3, "git commit"⟩] ∧
    (buildTrie exampleLines).top_inclusive 1 "" = [⟨9, "git"⟩] ∧
    (buildTrie exampleLines).top_inclusive_filt 2 "" = [⟨9, "git"⟩, ⟨5, "git status"⟩] :=
  ⟨by decide, by decide, by decide⟩

/-! ## Trie traversal and invariant lemmas -/

/-- Strong induction over the trie: to prove a property of every node it
suffices to prove it at each node assuming it for all children. -/
theorem Node.strongRecOn {motive : Node → Prop}
    (ind : ∀ cs ci ce, (∀ k c, (k, c) ∈ cs → motive c) → motive (.mk cs ci ce)) :
    ∀ n : Node, motive n
  | .mk cs ci ce => ind cs ci ce (fun _ c _hmem => Node.strongRecOn ind c)
  termination_by n => sizeOf n
  decreasing_by
    have h1 := List.sizeOf_lt_of_mem _hmem
    simp only [Prod.mk.sizeOf_spec, Node.mk.sizeOf_spec] at h1 ⊢
    omega

@[simp] theorem allNodesB_mk (p : Node → Bool) (cs : List (String × Node)) (ci ce : Nat) :
    allNodesB p (.mk cs ci ce) = (p (.mk cs ci ce) && allChildrenB p cs) := rfl

theorem allChildrenB_iff (p : Node → Bool) (cs : List (String × Node)) :
    allChildrenB p cs = true ↔ ∀ kc ∈ cs, allNodesB p kc.2 = true := by
  induction cs with
  | nil => simp [allChildrenB]
  | cons kc rest ih =>
    obtain ⟨k, c⟩ := kc
    simp only [allChildrenB, Bool.and_eq_true, ih, List.mem_cons]
    constructor
    · rintro ⟨h₁, h₂⟩ kc' (rfl | hm)
      · exact h₁
      · exact h₂ kc' hm
    · intro h
      exact ⟨h (k, c) (Or.inl rfl), fun kc' hm => h kc' (Or.inr hm)⟩

theorem allNodesB_self {p : Node → Bool} {n : Node} (h : allNodesB p n = true) :
    p n = true := by
  cases n with
  | mk cs ci ce => exact (Bool.and_eq_true .. |>.mp h).1

theorem allNodesB_child {p : Node → Bool} {cs : List (String × Node)} {ci ce : Nat}
    (h : allNodesB p (.mk cs ci ce) = true) {k : String} {c : Node} (hm : (k, c) ∈ cs) :
    allNodesB p c = true := by
  rw [allNodesB_mk, Bool.and_eq_true, allChildrenB_iff] at h
  exact h.2 (k, c) hm

theorem allNodesB_mono {p q : Node → Bool} (h : ∀ m, p m = true → q m = true) :
    ∀ n : Node, allNodesB p n = true → allNodesB q n = true := by
  apply Node.strongRecOn
  intro cs ci ce ih hp
  rw [allNodesB_mk, Bool.and_eq_true, allChildrenB_iff] at hp ⊢
  exact ⟨h _ hp.1, fun kc hm => ih kc.1 kc.2 hm (hp.2 kc hm)⟩

theorem findChild_some_mem {cs : List (String × Node)} {t : String} {c : Node}
    (h : findChild cs t = some c) : (t, c) ∈ cs := by
  induction cs with
  | nil => simp [findChild] at h
  | cons kc rest ih =>
    obtain ⟨k, c₀⟩ := kc
    rw [findChild] at h
    split at h
    case isTrue ht =>
      injection h with h'
      subst h'
      subst ht
      exact List.mem_cons_self ..
    case isFalse ht =>
      exact List.mem_cons_of_mem _ (ih h)

theorem allChildrenB_setChild {p : Node → Bool} {c' : Node} (hc' : allNodesB p c' = true)
    (t : String) : ∀ cs : List (String × Node),
    allChildrenB p cs = true → allChildrenB p (setChild cs t c') = true := by
  intro cs
  induction cs with
  | nil => intro _; simp [setChild, allChildrenB, hc']
  | cons kc rest ih =>
    obtain ⟨k, c₀⟩ := kc
    intro h
    simp only [allChildrenB, Bool.and_eq_true] at h
    obtain ⟨h₁, h₂⟩ := h
    by_cases ht : t = k
    · simp only [setChild, if_pos ht, allChildrenB, Bool.and_eq_true]
      exact ⟨hc', h₂⟩
    · by_cases hlt : stringLt t k = true
      · simp only [setChild, if_neg ht, if_pos hlt, allChildrenB, Bool.and_eq_true]
        exact ⟨hc', h₁, h₂⟩
      · simp only [setChild, if_neg ht, if_neg hlt, allChildrenB, Bool.and_eq_true]
        exact ⟨h₁, ih h₂⟩

theorem keyLtHead_setChild {k t : String} (hk : stringLt k t = true) (c' : Node) :
    ∀ cs : List (String × Node), keyLtHead k cs = true →
      keyLtHead k (setChild cs t c') = true := by
  intro cs
  induction cs with
  | nil => intro _; simp [setChild, keyLtHead, hk]
  | cons kc rest _ =>
    obtain ⟨k₂, c₂⟩ := kc
    intro h
    by_cases ht : t = k₂
    · simpa [setChild, if_pos ht, keyLtHead] using h
    · by_cases hlt : stringLt t k₂ = true
      · simp [setChild, if_neg ht, if_pos hlt, keyLtHead, hk]
      · simpa [setChild, if_neg ht, if_neg hlt, keyLtHead] using h

theorem keysSortedB_setChild (t : String) (c' : Node) :
    ∀ cs : List (String × Node), keysSortedB cs = true →
      keysSortedB (setChild cs t c') = true := by
  intro cs
  induction cs with
  | nil => intro _; simp [setChild, keysSortedB, keyLtHead]
  | cons kc rest ih =>
    obtain ⟨k, c⟩ := kc
    intro h
    simp only [keysSortedB, Bool.and_eq_true] at h
    obtain ⟨h₁, h₂⟩ := h
    by_cases ht : t = k
    · subst ht
      simp only [setChild, if_pos rfl, keysSortedB, Bool.and_eq_true]
      constructor
      · cases rest with
        | nil => rfl
        | cons kc₂ rest₂ => simpa [keyLtHead] using h₁
      · exact h₂
    · by_cases hlt : stringLt t k = true
      · simp only [setChild, if_neg ht, if_pos hlt, keysSortedB, Bool.and_eq_true, keyLtHead]
        exact ⟨hlt, h₁, h₂⟩
      · have hkt : stringLt k t = true :=
          stringLt_total (fun he => ht he.symm) (by simpa using hlt)
        simp only [setChild, if_neg ht, if_neg hlt, keysSortedB, Bool.and_eq_true]
        exact ⟨keyLtHead_setChild hkt c' rest h₁, ih h₂⟩

/-- In a sorted child list, a key below the first key is absent. -/
theorem findChild_none_of_lt_head {t : String} : ∀ cs : List (String × Node),
    keysSortedB cs = true → keyLtHead t cs = true → findChild cs t = none := by
  intro cs
  induction cs with
  | nil => intro _ _; rfl
  | cons kc rest ih =>
    obtain ⟨k, c⟩ := kc
    intro hs hh
    simp only [keysSortedB, Bool.and_eq_true] at hs
    simp only [keyLtHead] at hh
    have ht : t ≠ k := by
      intro he
      subst he
      rw [stringLt_irrefl] at hh
      cases hh
    rw [findChild, if_neg ht]
    apply ih hs.2
    cases rest with
    | nil => rfl
    | cons kc₂ rest₂ =>
      obtain ⟨k₂, c₂⟩ := kc₂
      simp only [keyLtHead] at hs ⊢
      exact stringLt_trans hh hs.1

/-- Sum accounting of `setChild` on a sorted child list: replacing (or
inserting) the binding of `t` with `c'` exchanges the old binding's
`count_inclusive` (zero when absent) for `c'`'s. -/
theorem sumInc_setChild (t : String) (c' : Node) : ∀ cs : List (String × Node),
    keysSortedB cs = true →
    sumInc (setChild cs t c') + (getChild cs t).count_inclusive =
      sumInc cs + c'.count_inclusive := by
  intro cs
  induction cs with
  | nil => intro _; simp [setChild, sumInc, getChild, findChild, Node.new]
  | cons kc rest ih =>
    obtain ⟨k, c⟩ := kc
    intro hs
    simp only [keysSortedB, Bool.and_eq_true] at hs
    by_cases ht : t = k
    · subst ht
      simp [setChild, sumInc, getChild, findChild]
      omega
    · by_cases hlt : stringLt t k = true
      · have hnone : findChild ((k, c) :: rest) t = none := by
          apply findChild_none_of_lt_head
          · simp only [keysSortedB, Bool.and_eq_true]
            exact hs
          · simpa [keyLtHead] using hlt
        simp only [setChild, if_neg ht, if_pos hlt, sumInc, getChild, hnone,
          Option.getD_none, Node.new, Node.count_inclusive_mk]
        omega
      · have := ih hs.2
        simp only [setChild, if_neg ht, if_neg hlt, sumInc, getChild, findChild, if_neg ht]
        simp only [getChild] at this
        omega

theorem trieInv_new : trieInv Node.new = true := by decide

/-- Ingestion `chomp` preserves the representation + counting invariant. -/
theorem trieInv_chomp (toks : List String) : ∀ n : Node,
    trieInv n = true → trieInv (n.chomp toks) = true := by
  induction toks with
  | nil =>
    intro n h
    cases n with
    | mk cs ci ce =>
      simp only [trieInv, allNodesB_mk, Bool.and_eq_true, Node.children_mk, goodCounts,
        Node.count_exact_mk, Node.count_inclusive_mk, decide_eq_true_eq, beq_iff_eq] at h
      obtain ⟨⟨hsorted, hce, hci⟩, hcs⟩ := h
      simp only [Node.chomp, trieInv, allNodesB_mk, Bool.and_eq_true, Node.children_mk,
        goodCounts, Node.count_exact_mk, Node.count_inclusive_mk, decide_eq_true_eq,
        beq_iff_eq]
      exact ⟨⟨hsorted, by omega, by omega⟩, hcs⟩
  | cons t ts ih =>
    intro n h
    cases n with
    | mk cs ci ce =>
      have hall : allNodesB (fun m => keysSortedB m.children && goodCounts m)
          (Node.mk cs ci ce) = true := h
      simp only [trieInv, allNodesB_mk, Bool.and_eq_true, Node.children_mk, goodCounts,
        Node.count_exact_mk, Node.count_inclusive_mk, decide_eq_true_eq, beq_iff_eq] at h
      obtain ⟨⟨hsorted, hce, hci⟩, hcs⟩ := h
      have hchild : trieInv (getChild cs t) = true := by
        unfold getChild
        cases hf : findChild cs t with
        | none => exact trieInv_new
        | some c =>
          simp only [Option.getD_some]
          exact allNodesB_child hall (findChild_some_mem hf)
      have hc' : trieInv ((getChild cs t).chomp ts) = true := ih _ hchild
      have hsum := sumInc_setChild t ((getChild cs t).chomp ts) cs hsorted
      rw [chomp_count_inclusive] at hsum
      simp only [Node.chomp, trieInv, allNodesB_mk, Bool.and_eq_true, Node.children_mk,
        goodCounts, Node.count_exact_mk, Node.count_inclusive_mk, decide_eq_true_eq,
        beq_iff_eq]
      refine ⟨⟨keysSortedB_setChild t _ cs hsorted, by omega, by omega⟩, ?_⟩
      exact allChildrenB_setChild hc' t cs hcs

/-- Every trie built by ingestion satisfies the invariant. -/
theorem trieInv_buildTrie (lines : List (List String)) : trieInv (buildTrie lines) = true := by
  unfold buildTrie
  have : ∀ (ls : List (List String)) (n : Node), trieInv n = true →
      trieInv (ls.foldl Node.chomp n) = true := by
    intro ls
    induction ls with
    | nil => intro n h; exact h
    | cons l rest ih => intro n h; exact ih _ (trieInv_chomp l n h)
  exact this lines Node.new trieInv_new

/-- C3: in every trie built by a finite sequence of ingestion calls starting
from a new empty trie, every node satisfies `count_exact ≤ count_inclusive`,
and `count_inclusive` equals the node's own `count_exact` plus the sum over
its children of each child's `count_inclusive`. -/
theorem buildTrie_wellCounted (lines : List (List String)) :
    wellCounted (buildTrie lines) = true := by
  apply allNodesB_mono (fun m hm => ?_) _ (trieInv_buildTrie lines)
  exact (Bool.and_eq_true .. |>.mp hm).2

/-- C5: the Fuzzy qualification test never divides by zero on a trie built
by ingestion: the `count_exact != 0` conjunct short-circuits (a node with
`count_exact = 0` is rejected whatever its `count_inclusive`), and on every
node of a built trie `count_exact ≠ 0` implies the divisor
`count_inclusive` is strictly positive. -/
theorem fuzzyQualifies_no_div_by_zero (lines : List (List String)) :
    (∀ n : Node, n.count_exact = 0 → fuzzyQualifies n = false) ∧
    allNodesB (fun m => m.count_exact == 0 || decide (0 < m.count_inclusive))
      (buildTrie lines) = true := by
  constructor
  · intro n h
    simp [fuzzyQualifies, h]
  · apply allNodesB_mono (fun m hm => ?_) _ (buildTrie_wellCounted lines)
    simp only [goodCounts, Bool.and_eq_true, decide_eq_true_eq, beq_iff_eq] at hm
    simp only [Bool.or_eq_true, beq_iff_eq, decide_eq_true_eq]
    omega

/-- Witness for C5 at concrete inputs. -/
theorem fuzzyQualifies_no_div_by_zero_witness :
    fuzzyQualifies Node.new = false ∧
    allNodesB (fun m => m.count_exact == 0 || decide (0 < m.count_inclusive))
      (buildTrie [["a"]]) = true :=
  ⟨(fuzzyQualifies_no_div_by_zero [["a"]]).1 Node.new rfl,
    (fuzzyQualifies_no_div_by_zero [["a"]]).2⟩

theorem fuzzyQualifies_iff (n : Node) :
    fuzzyQualifies n = true ↔
      (n.count_exact ≠ 0 ∧ (n.count_exact * 10) / n.count_inclusive ≥ 1) := by
  simp [fuzzyQualifies, bne_iff_ne]

/-- C4: in `top_inclusive_filt`, a child is emitted as its own candidate iff
`count_exact ≠ 0` and `(count_exact * 10) / count_inclusive ≥ 1` under
integer division, and the emitted entry's count is the child's
`count_inclusive`; in particular `count_exact = 3, count_inclusive = 30`
qualifies while `count_exact = 2, count_inclusive = 30` does not. -/
theorem filt_qualification :
    (∀ (cmd : String) (node : Node) (rest : List (String × Node)) (ct : Nat) (pre : String),
      filtCands ((cmd, node) :: rest) ct pre =
        node.top_inclusive_filt ct (pre ++ cmd ++ " ") ++
        (if node.count_exact ≠ 0 ∧ (node.count_exact * 10) / node.count_inclusive ≥ 1 then
          [{ count := node.count_inclusive, full_text := trimEnd (pre ++ cmd ++ " ") }]
        else []) ++
        filtCands rest ct pre) ∧
    fuzzyQualifies (Node.mk [] 30 3) = true ∧
    fuzzyQualifies (Node.mk [] 30 2) = false := by
  refine ⟨?_, by decide, by decide⟩
  intro cmd node rest ct pre
  rw [filtCands, List.append_assoc]
  by_cases h : fuzzyQualifies node = true
  · rw [if_pos h, if_pos ((fuzzyQualifies_iff node).mp h)]
    exact (List.append_assoc _ _ _).symm
  · have h' : fuzzyQualifies node = false := by simpa using h
    rw [if_neg (by simp [h']), if_neg (fun hc => h ((fuzzyQualifies_iff node).mpr hc))]
    exact (List.append_assoc _ _ _).symm

/-! ## Sorting lemmas -/

theorem insertNat_perm (a : Nat) : ∀ l : List Nat, (insertNat a l).Perm (a :: l) := by
  intro l
  induction l with
  | nil => exact List.Perm.refl _
  | cons b rest ih =>
    rw [insertNat]
    split
    · exact List.Perm.refl _
    · exact (ih.cons b).trans (List.Perm.swap a b rest)

theorem sortDescNat_perm (l : List Nat) : (sortDescNat l).Perm l := by
  induction l with
  | nil => exact List.Perm.refl _
  | cons a rest ih => exact (insertNat_perm a (sortDescNat rest)).trans (ih.cons a)

theorem insertNat_sorted (a : Nat) : ∀ l : List Nat, SortedDesc l → SortedDesc (insertNat a l) := by
  intro l
  induction l with
  | nil => intro _; simp [insertNat, SortedDesc]
  | cons b rest ih =>
    intro h
    have hb : ∀ z ∈ rest, z ≤ b := (List.pairwise_cons.mp h).1
    have hrest : SortedDesc rest := (List.pairwise_cons.mp h).2
    rw [insertNat]
    split
    case isTrue hba =>
      show List.Pairwise (fun x y => y ≤ x) (a :: b :: rest)
      rw [List.pairwise_cons]
      refine ⟨?_, h⟩
      intro z hz
      rcases List.mem_cons.mp hz with rfl | hz'
      · exact hba
      · exact le_trans (hb z hz') hba
    case isFalse hba =>
      show List.Pairwise (fun x y => y ≤ x) (b :: insertNat a rest)
      rw [List.pairwise_cons]
      refine ⟨?_, ih hrest⟩
      intro z hz
      have hz' := (insertNat_perm a rest).mem_iff.mp hz
      rcases List.mem_cons.mp hz' with rfl | hz''
      · omega
      · exact hb z hz''

theorem sortDescNat_sorted (l : List Nat) : SortedDesc (sortDescNat l) := by
  induction l with
  | nil => simp [sortDescNat, SortedDesc]
  | cons a rest ih => exact insertNat_sorted a (sortDescNat rest) ih

theorem insertCt_perm (a : CtNode) : ∀ l : List CtNode, (insertCt a l).Perm (a :: l) := by
  intro l
  induction l with
  | nil => exact List.Perm.refl _
  | cons b rest ih =>
    rw [insertCt]
    split
    · exact List.Perm.refl _
    · exact (ih.cons b).trans (List.Perm.swap a b rest)

theorem sortCt_perm (l : List CtNode) : (sortCt l).Perm l := by
  induction l with
  | nil => exact List.Perm.refl _
  | cons a rest ih => exact (insertCt_perm a (sortCt rest)).trans (ih.cons a)

theorem insertCt_sorted (a : CtNode) : ∀ l : List CtNode,
    l.Pairwise (fun x y => y.count ≤ x.count) →
    (insertCt a l).Pairwise (fun x y => y.count ≤ x.count) := by
  intro l
  induction l with
  | nil => intro _; simp [insertCt]
  | cons b rest ih =>
    intro h
    have hb : ∀ z ∈ rest, z.count ≤ b.count := (List.pairwise_cons.mp h).1
    have hrest := (List.pairwise_cons.mp h).2
    rw [insertCt]
    split
    case isTrue hba =>
      rw [List.pairwise_cons]
      refine ⟨?_, h⟩
      intro z hz
      rcases List.mem_cons.mp hz with rfl | hz'
      · exact hba
      · exact le_trans (hb z hz') hba
    case isFalse hba =>
      rw [List.pairwise_cons]
      refine ⟨?_, ih hrest⟩
      intro z hz
      have hz' := (insertCt_perm a rest).mem_iff.mp hz
      rcases List.mem_cons.mp hz' with rfl | hz''
      · omega
      · exact hb z hz''

theorem sortCt_sorted (l : List CtNode) :
    (sortCt l).Pairwise (fun x y => y.count ≤ x.count) := by
  induction l with
  | nil => simp [sortCt]
  | cons a rest ih => exact insertCt_sorted a (sortCt rest) ih

theorem sortCt_counts_sorted (l : List CtNode) : SortedDesc (countsOf (sortCt l)) := by
  show List.Pairwise (fun x y => y ≤ x) (List.map CtNode.count (sortCt l))
  rw [List.pairwise_map]
  exact sortCt_sorted l

/-! ## Heap-model lemmas -/

theorem minCount_le {x : CtNode} : ∀ {l : List CtNode}, x ∈ l → minCount l ≤ x.count := by
  intro l
  induction l with
  | nil => intro h; cases h
  | cons a rest ih =>
    intro hx
    cases rest with
    | nil =>
      rcases List.mem_cons.mp hx with rfl | h
      · exact le_refl _
      · cases h
    | cons b rest₂ =>
      rw [minCount]
      rcases List.mem_cons.mp hx with rfl | h
      · exact Nat.min_le_left ..
      · exact le_trans (Nat.min_le_right ..) (ih h)

theorem minCount_mem : ∀ {l : List CtNode}, l ≠ [] → ∃ a ∈ l, a.count = minCount l := by
  intro l
  induction l with
  | nil => intro h; exact absurd rfl h
  | cons a rest ih =>
    intro _
    cases rest with
    | nil => exact ⟨a, List.mem_cons_self .., rfl⟩
    | cons b rest₂ =>
      rw [minCount]
      rcases le_or_lt a.count (minCount (b :: rest₂)) with h | h
      · exact ⟨a, List.mem_cons_self .., (Nat.min_eq_left h).symm⟩
      · obtain ⟨z, hz, hz'⟩ := ih (by simp)
        exact ⟨z, List.mem_cons_of_mem _ hz, by
          have hmin : a.count.min (minCount (b :: rest₂)) = min a.count (minCount (b :: rest₂)) := rfl
          rw [hmin]
          omega⟩

theorem countsOf_removeFirst {c : Nat} : ∀ {l : List CtNode}, (∃ a ∈ l, a.count = c) →
    (countsOf l).Perm (c :: countsOf (removeFirstWithCount c l)) := by
  intro l
  induction l with
  | nil => intro h; obtain ⟨a, ha, -⟩ := h; cases ha
  | cons a rest ih =>
    intro hex
    by_cases hc : a.count = c
    · rw [removeFirstWithCount, if_pos hc]
      subst hc
      exact List.Perm.refl _
    · rw [removeFirstWithCount, if_neg hc]
      have hex' : ∃ b ∈ rest, b.count = c := by
        obtain ⟨b, hb, hbc⟩ := hex
        rcases List.mem_cons.mp hb with rfl | hb'
        · exact absurd hbc hc
        · exact ⟨b, hb', hbc⟩
      have h2 := (ih hex').cons a.count
      exact h2.trans (List.Perm.swap c a.count (countsOf (removeFirstWithCount c rest)))

theorem heapPop_counts {l : List CtNode} (h : l ≠ []) :
    (countsOf l).Perm (minCount l :: countsOf (heapPop l)) :=
  countsOf_removeFirst (minCount_mem h)

theorem countsOf_length (l : List CtNode) : (countsOf l).length = l.length :=
  List.length_map ..

theorem heapPop_length {l : List CtNode} (h : l ≠ []) :
    (heapPop l).length + 1 = l.length := by
  have := (heapPop_counts h).length_eq
  simp only [countsOf_length, List.length_cons] at this
  omega

theorem trimHeap_of_le {ct : Nat} {l : List CtNode} (h : l.length ≤ ct) :
    trimHeap ct l = l := by
  rw [trimHeap]
  cases hl : l.length with
  | zero => rfl
  | succ m =>
    rw [trimGo, if_neg]
    omega

theorem trimHeap_of_gt {ct : Nat} {l : List CtNode} (h : ct < l.length) :
    trimHeap ct l = trimHeap ct (heapPop l) := by
  have hne : l ≠ [] := by
    intro he
    subst he
    simp at h
  have hlen : (heapPop l).length + 1 = l.length := heapPop_length hne
  rw [trimHeap, trimHeap, ← hlen, trimGo, if_pos (by omega)]

theorem natMin_eq (a b : Nat) : Nat.min a b = min a b := rfl

theorem IsSelection.perm_s {ct : Nat} {m s s' : List Nat} (hp : s'.Perm s)
    (h : IsSelection ct m s) : IsSelection ct m s' := by
  obtain ⟨hlen, r, hm, hr⟩ := h
  refine ⟨by rw [hp.length_eq, hlen], r, hm.trans (List.Perm.append_right r hp.symm), ?_⟩
  intro x hx y hy
  exact hr x hx y (hp.mem_iff.mp hy)

theorem mem_countsOf {y : Nat} {l : List CtNode} (h : y ∈ countsOf l) :
    ∃ e ∈ l, e.count = y :=
  List.mem_map.mp h

theorem trim_selection (ct : Nat) : ∀ (fuel : Nat) (l : List CtNode), l.length ≤ fuel →
    IsSelection ct (countsOf l) (countsOf (trimHeap ct l)) := by
  intro fuel
  induction fuel with
  | zero =>
    intro l hl
    have hnil : l = [] := List.eq_nil_of_length_eq_zero (by omega)
    subst hnil
    rw [trimHeap_of_le (by simp)]
    exact ⟨by simp [countsOf, natMin_eq], [], by simp, by simp⟩
  | succ f ih =>
    intro l hl
    by_cases hct : ct < l.length
    · rw [trimHeap_of_gt hct]
      have hne : l ≠ [] := by intro he; subst he; simp at hct
      have hlen := heapPop_length hne
      obtain ⟨hslen, r, hm, hr⟩ := ih (heapPop l) (by omega)
      have h1 := heapPop_counts hne
      refine ⟨?_, minCount l :: r, ?_, ?_⟩
      · rw [hslen]
        simp only [countsOf_length, natMin_eq]
        omega
      · exact h1.trans ((hm.cons _).trans (List.perm_middle).symm)
      · intro x hx y hy
        rcases List.mem_cons.mp hx with rfl | hx'
        · have hy₁ : y ∈ countsOf (heapPop l) := hm.symm.subset (List.mem_append_left _ hy)
          have hy₂ : y ∈ countsOf l := h1.symm.subset (List.mem_cons_of_mem _ hy₁)
          obtain ⟨e, he, hec⟩ := mem_countsOf hy₂
          rw [← hec]
          exact minCount_le he
        · exact hr x hx' y hy
    · rw [trimHeap_of_le (by omega)]
      refine ⟨?_, [], by simp, by simp⟩
      simp only [countsOf_length, natMin_eq]
      omega

theorem IsSelection.safeShrink {ct : Nat} {m s : List Nat} (h : IsSelection ct m s) :
    SafeShrink ct m s := by
  obtain ⟨hlen, r, hm, hr⟩ := h
  refine ⟨r, hm, ?_⟩
  intro x hx
  have hcount : s.countP (fun y => decide (x ≤ y)) = s.length :=
    List.countP_eq_length.mpr (fun y hy => decide_eq_true (hr x hx y hy))
  have hml : m.length = s.length + r.length := by rw [hm.length_eq]; simp
  have hrpos : 0 < r.length := List.length_pos.mpr (fun he => by subst he; cases hx)
  rw [natMin_eq] at hlen
  rw [hcount]
  omega

theorem SafeShrink.refl' {ct : Nat} (m : List Nat) : SafeShrink ct m m :=
  ⟨[], by simp, by simp⟩

theorem SafeShrink.append {ct : Nat} {m₁ c₁ m₂ c₂ : List Nat}
    (h₁ : SafeShrink ct m₁ c₁) (h₂ : SafeShrink ct m₂ c₂) :
    SafeShrink ct (m₁ ++ m₂) (c₁ ++ c₂) := by
  obtain ⟨d₁, hm₁, hd₁⟩ := h₁
  obtain ⟨d₂, hm₂, hd₂⟩ := h₂
  refine ⟨d₁ ++ d₂, ?_, ?_⟩
  · refine (hm₁.append hm₂).trans ?_
    rw [List.append_assoc, List.append_assoc]
    refine List.Perm.append_left c₁ ?_
    rw [← List.append_assoc d₁ c₂ d₂, ← List.append_assoc c₂ d₁ d₂]
    exact (List.perm_append_comm).append_right d₂
  · intro x hx
    rcases List.mem_append.mp hx with hx₁ | hx₂
    · have := hd₁ x hx₁
      rw [List.countP_append]
      omega
    · have := hd₂ x hx₂
      rw [List.countP_append]
      omega

theorem SafeShrink.perm_m {ct : Nat} {m m' c : List Nat} (hp : m'.Perm m)
    (h : SafeShrink ct m c) : SafeShrink ct m' c := by
  obtain ⟨d, hm, hd⟩ := h
  exact ⟨d, hp.trans hm, hd⟩

theorem SafeShrink.eq_c {ct : Nat} {m c c' : List Nat} (he : c' = c)
    (h : SafeShrink ct m c) : SafeShrink ct m c' := he ▸ h

theorem IsSelection.of_safeShrink {ct : Nat} {m c s : List Nat}
    (hsh : SafeShrink ct m c) (hsel : IsSelection ct c s) : IsSelection ct m s := by
  obtain ⟨d, hm, hd⟩ := hsh
  obtain ⟨hlen, r, hc, hr⟩ := hsel
  have hmlen : m.length = c.length + d.length := by rw [hm.length_eq]; simp
  have hclen : c.length = s.length + r.length := by rw [hc.length_eq]; simp
  rw [natMin_eq] at hlen
  refine ⟨?_, r ++ d, ?_, ?_⟩
  · rw [natMin_eq]
    cases d with
    | nil =>
      simp only [List.length_nil] at hmlen
      omega
    | cons x d' =>
      have hx := hd x (List.mem_cons_self ..)
      have hcp := List.countP_le_length (fun y => decide (x ≤ y)) (l := c)
      omega
  · rw [← List.append_assoc]
    exact hm.trans (hc.append_right d)
  · intro x hx y hy
    rcases List.mem_append.mp hx with hxr | hxd
    · exact hr x hxr y hy
    · by_contra hxy
      push_neg at hxy
      have hct : ct ≤ c.countP (fun z => decide (x ≤ z)) := hd x hxd
      have hcc : c.countP (fun z => decide (x ≤ z)) =
          s.countP (fun z => decide (x ≤ z)) + r.countP (fun z => decide (x ≤ z)) := by
        rw [hc.countP_eq, List.countP_append]
      have hslen : s.length = ct := by
        have := le_trans hct (List.countP_le_length (fun z => decide (x ≤ z)) (l := c))
        omega
      have hys : s.countP (fun z => decide (x ≤ z)) < s.length := by
        have hne : s.countP (fun z => decide (x ≤ z)) ≠ s.length := by
          intro he
          have := List.countP_eq_length.mp he y hy
          simp at this
          omega
        have hle := List.countP_le_length (fun z => decide (x ≤ z)) (l := s)
        omega
      have hrp : 0 < r.countP (fun z => decide (x ≤ z)) := by omega
      obtain ⟨z, hz, hzx⟩ := List.countP_pos_iff.mp hrp
      have hzy := hr z hz y hy
      simp at hzx
      omega

theorem selection_unique : ∀ (k : Nat) (s₁ r₁ s₂ r₂ : List Nat),
    s₁.length = k → s₂.length = k → SortedDesc s₁ → SortedDesc s₂ →
    (s₁ ++ r₁).Perm (s₂ ++ r₂) →
    (∀ x ∈ r₁, ∀ y ∈ s₁, x ≤ y) → (∀ x ∈ r₂, ∀ y ∈ s₂, x ≤ y) →
    s₁ = s₂ := by
  intro k
  induction k with
  | zero =>
    intro s₁ r₁ s₂ r₂ h₁ h₂ _ _ _ _ _
    rw [List.length_eq_zero] at h₁ h₂
    rw [h₁, h₂]
  | succ n ih =>
    intro s₁ r₁ s₂ r₂ h₁ h₂ hs₁ hs₂ hp hr₁ hr₂
    cases s₁ with
    | nil => simp at h₁
    | cons a₁ t₁ =>
      cases s₂ with
      | nil => simp at h₂
      | cons a₂ t₂ =>
        have hmax₁ : ∀ z ∈ (a₁ :: t₁) ++ r₁, z ≤ a₁ := by
          intro z hz
          rcases List.mem_append.mp hz with hz₁ | hz₂
          · rcases List.mem_cons.mp hz₁ with rfl | hz₃
            · exact le_refl _
            · exact (List.pairwise_cons.mp hs₁).1 z hz₃
          · exact hr₁ z hz₂ a₁ (List.mem_cons_self ..)
        have hmax₂ : ∀ z ∈ (a₂ :: t₂) ++ r₂, z ≤ a₂ := by
          intro z hz
          rcases List.mem_append.mp hz with hz₁ | hz₂
          · rcases List.mem_cons.mp hz₁ with rfl | hz₃
            · exact le_refl _
            · exact (List.pairwise_cons.mp hs₂).1 z hz₃
          · exact hr₂ z hz₂ a₂ (List.mem_cons_self ..)
        have ha₁ : a₁ ≤ a₂ := hmax₂ a₁ (hp.subset (by simp))
        have ha₂ : a₂ ≤ a₁ := hmax₁ a₂ (hp.symm.subset (by simp))
        have he : a₁ = a₂ := le_antisymm ha₁ ha₂
        subst he
        have hp' : (t₁ ++ r₁).Perm (t₂ ++ r₂) := List.Perm.cons_inv hp
        have ht := ih t₁ r₁ t₂ r₂ (by simpa using h₁) (by simpa using h₂)
          (List.pairwise_cons.mp hs₁).2 (List.pairwise_cons.mp hs₂).2 hp'
          (fun x hx y hy => hr₁ x hx y (List.mem_cons_of_mem _ hy))
          (fun x hx y hy => hr₂ x hx y (List.mem_cons_of_mem _ hy))
        rw [ht]

theorem specTop_selection (ct : Nat) (m : List Nat) :
    SortedDesc (specTopCounts ct m) ∧ IsSelection ct m (specTopCounts ct m) := by
  have hsorted := sortDescNat_sorted m
  have hperm := sortDescNat_perm m
  constructor
  · exact List.Pairwise.sublist (List.take_sublist ..) hsorted
  · refine ⟨?_, (sortDescNat m).drop ct, ?_, ?_⟩
    · rw [specTopCounts, List.length_take, hperm.length_eq, natMin_eq]
    · refine hperm.symm.trans ?_
      show (sortDescNat m).Perm ((sortDescNat m).take ct ++ (sortDescNat m).drop ct)
      rw [List.take_append_drop]
    · intro x hx y hy
      have hps := List.pairwise_append.mp
        (show ((sortDescNat m).take ct ++ (sortDescNat m).drop ct).Pairwise
          (fun a b => b ≤ a) from by rw [List.take_append_drop]; exact hsorted)
      exact hps.2.2 y hy x hx

/-! ## The shared top-k extraction theorem -/

theorem countsOf_append (a b : List CtNode) : countsOf (a ++ b) = countsOf a ++ countsOf b :=
  List.map_append ..

theorem specMetrics_mk (q : Node → Bool) (f : Node → Nat) (cs : List (String × Node))
    (ci ce : Nat) : Node.specMetrics q f (.mk cs ci ce) = specMetricsList q f cs := rfl

theorem topSpecNodeStep (T : Node → Nat → String → List CtNode) (q : Node → Bool)
    (f : Node → Nat)
    (hT : ∀ n ct pre, T n ct pre =
      sortCt (trimHeap ct (candsWith T q f n.children ct pre)))
    (cs : List (String × Node)) (ci ce : Nat)
    (hlist : ∀ (ct : Nat) (pre : String),
      SafeShrink ct (specMetricsList q f cs) (countsOf (candsWith T q f cs ct pre))) :
    ∀ (ct : Nat) (pre : String),
      SortedDesc (countsOf (T (.mk cs ci ce) ct pre)) ∧
      IsSelection ct (Node.specMetrics q f (.mk cs ci ce)) (countsOf (T (.mk cs ci ce) ct pre)) := by
  intro ct pre
  rw [hT, Node.children_mk, specMetrics_mk]
  constructor
  · exact sortCt_counts_sorted _
  · have hsel := trim_selection ct (candsWith T q f cs ct pre).length
      (candsWith T q f cs ct pre) (le_refl _)
    have hperm : (countsOf (sortCt (trimHeap ct (candsWith T q f cs ct pre)))).Perm
        (countsOf (trimHeap ct (candsWith T q f cs ct pre))) :=
      (sortCt_perm _).map CtNode.count
    exact IsSelection.perm_s hperm (IsSelection.of_safeShrink (hlist ct pre) hsel)

theorem topSpecListNil (T : Node → Nat → String → List CtNode) (q : Node → Bool)
    (f : Node → Nat) :
    ∀ (ct : Nat) (pre : String),
      SafeShrink ct (specMetricsList q f []) (countsOf (candsWith T q f [] ct pre)) := by
  intro ct pre
  exact SafeShrink.refl' []

theorem topSpecListStep (T : Node → Nat → String → List CtNode) (q : Node → Bool)
    (f : Node → Nat) (cmd : String) (c : Node) (rest : List (String × Node))
    (hnode : ∀ (ct : Nat) (pre : String),
      SortedDesc (countsOf (T c ct pre)) ∧
      IsSelection ct (Node.specMetrics q f c) (countsOf (T c ct pre)))
    (hrest : ∀ (ct : Nat) (pre : String),
      SafeShrink ct (specMetricsList q f rest) (countsOf (candsWith T q f rest ct pre))) :
    ∀ (ct : Nat) (pre : String),
      SafeShrink ct (specMetricsList q f ((cmd, c) :: rest))
        (countsOf (candsWith T q f ((cmd, c) :: rest) ct pre)) := by
  intro ct pre
  rw [specMetricsList, candsWith, countsOf_append, countsOf_append]
  have h1 : SafeShrink ct (Node.specMetrics q f c) (countsOf (T c ct (pre ++ cmd ++ " "))) :=
    ((hnode ct (pre ++ cmd ++ " ")).2).safeShrink
  have hifq : countsOf (if q c then
      [({ count := f c, full_text := trimEnd (pre ++ cmd ++ " ") } : CtNode)] else []) =
      (if q c then [f c] else []) := by
    cases hq : q c <;> simp [countsOf]
  have h2 : SafeShrink ct (if q c then [f c] else [])
      (countsOf (if q c then
        [({ count := f c, full_text := trimEnd (pre ++ cmd ++ " ") } : CtNode)] else [])) := by
    rw [hifq]
    exact SafeShrink.refl' _
  have h12 := h1.append h2
  have h123 := h12.append (hrest ct pre)
  refine SafeShrink.perm_m ?_ h123
  exact List.Perm.append_right _ List.perm_append_comm

mutual
theorem topSpecNode (T : Node → Nat → String → List CtNode) (q : Node → Bool)
    (f : Node → Nat)
    (hT : ∀ n ct pre, T n ct pre =
      sortCt (trimHeap ct (candsWith T q f n.children ct pre))) :
    ∀ n : Node, ∀ (ct : Nat) (pre : String),
      SortedDesc (countsOf (T n ct pre)) ∧
      IsSelection ct (Node.specMetrics q f n) (countsOf (T n ct pre))
  | .mk cs ci ce => topSpecNodeStep T q f hT cs ci ce (topSpecList T q f hT cs)
  termination_by structural n => n

theorem topSpecList (T : Node → Nat → String → List CtNode) (q : Node → Bool)
    (f : Node → Nat)
    (hT : ∀ n ct pre, T n ct pre =
      sortCt (trimHeap ct (candsWith T q f n.children ct pre))) :
    ∀ cs : List (String × Node), ∀ (ct : Nat) (pre : String),
      SafeShrink ct (specMetricsList q f cs) (countsOf (candsWith T q f cs ct pre))
  | [] => topSpecListNil T q f
  | (cmd, c) :: rest =>
    topSpecListStep T q f cmd c rest (topSpecNode T q f hT c) (topSpecList T q f hT rest)
  termination_by structural cs => cs
end

theorem top_counts_eq (T : Node → Nat → String → List CtNode) (q : Node → Bool)
    (f : Node → Nat)
    (hT : ∀ n ct pre, T n ct pre =
      sortCt (trimHeap ct (candsWith T q f n.children ct pre)))
    (n : Node) (ct : Nat) (pre : String) :
    countsOf (T n ct pre) = specTopCounts ct (Node.specMetrics q f n) := by
  obtain ⟨hsorted, hsel⟩ := topSpecNode T q f hT n ct pre
  obtain ⟨hsorted₂, hsel₂⟩ := specTop_selection ct (Node.specMetrics q f n)
  obtain ⟨hlen₁, r₁, hm₁, hr₁⟩ := hsel
  obtain ⟨hlen₂, r₂, hm₂, hr₂⟩ := hsel₂
  exact selection_unique (Nat.min ct (Node.specMetrics q f n).length) _ r₁ _ r₂ hlen₁ hlen₂
    hsorted hsorted₂ (hm₁.symm.trans hm₂) hr₁ hr₂

theorem exclusiveCands_eq : ∀ (cs : List (String × Node)) (ct : Nat) (pre : String),
    exclusiveCands cs ct pre =
      candsWith Node.top_exclusive (fun _ => true) Node.count_exact cs ct pre := by
  intro cs
  induction cs with
  | nil => intro ct pre; rfl
  | cons kc rest ih =>
    obtain ⟨cmd, c⟩ := kc
    intro ct pre
    rw [exclusiveCands, candsWith, ih]
    simp

theorem inclusiveCands_eq : ∀ (cs : List (String × Node)) (ct : Nat) (pre : String),
    inclusiveCands cs ct pre =
      candsWith Node.top_inclusive (fun _ => true) Node.count_inclusive cs ct pre := by
  intro cs
  induction cs with
  | nil => intro ct pre; rfl
  | cons kc rest ih =>
    obtain ⟨cmd, c⟩ := kc
    intro ct pre
    rw [inclusiveCands, candsWith, ih]
    simp

theorem filtCands_eq : ∀ (cs : List (String × Node)) (ct : Nat) (pre : String),
    filtCands cs ct pre =
      candsWith Node.top_inclusive_filt fuzzyQualifies Node.count_inclusive cs ct pre := by
  intro cs
  induction cs with
  | nil => intro ct pre; rfl
  | cons kc rest ih =>
    obtain ⟨cmd, c⟩ := kc
    intro ct pre
    rw [filtCands, candsWith, ih]

theorem top_exclusive_unfold (n : Node) (ct : Nat) (pre : String) :
    n.top_exclusive ct pre = sortCt (trimHeap ct
      (candsWith Node.top_exclusive (fun _ => true) Node.count_exact n.children ct pre)) := by
  cases n with
  | mk cs ci ce => rw [Node.top_exclusive, Node.children_mk, exclusiveCands_eq]

theorem top_inclusive_unfold (n : Node) (ct : Nat) (pre : String) :
    n.top_inclusive ct pre = sortCt (trimHeap ct
      (candsWith Node.top_inclusive (fun _ => true) Node.count_inclusive n.children ct pre)) := by
  cases n with
  | mk cs ci ce => rw [Node.top_inclusive, Node.children_mk, inclusiveCands_eq]

theorem top_inclusive_filt_unfold (n : Node) (ct : Nat) (pre : String) :
    n.top_inclusive_filt ct pre = sortCt (trimHeap ct
      (candsWith Node.top_inclusive_filt fuzzyQualifies Node.count_inclusive n.children ct pre)) := by
  cases n with
  | mk cs ci ce => rw [Node.top_inclusive_filt, Node.children_mk, filtCands_eq]

theorem top_generic_length (T : Node → Nat → String → List CtNode) (q : Node → Bool)
    (f : Node → Nat)
    (hT : ∀ n ct pre, T n ct pre =
      sortCt (trimHeap ct (candsWith T q f n.children ct pre)))
    (n : Node) (ct : Nat) (pre : String) :
    (T n ct pre).length = Nat.min ct (Node.specMetrics q f n).length := by
  have h := (topSpecNode T q f hT n ct pre).2.1
  rwa [countsOf_length] at h

/-- C2: on every trie built by ingestion and for every limit, the lists
returned by `top_exclusive` (Exact policy) and `top_inclusive` (Heat policy)
are sorted by count in descending order, and their counts are exactly the
true top-`limit` values of the policy's metric (`count_exact` for Exact,
`count_inclusive` for Heat) over all non-root prefix nodes of the whole trie
— equal to sorting all those scores descending and taking the first
`limit`, not an approximation. -/
theorem top_exact_heat_true_topk (lines : List (List String)) (ct : Nat) :
    (SortedDesc (countsOf ((buildTrie lines).top_exclusive ct "")) ∧
      countsOf ((buildTrie lines).top_exclusive ct "") =
        specTopCounts ct ((buildTrie lines).specMetrics (fun _ => true) Node.count_exact)) ∧
    (SortedDesc (countsOf ((buildTrie lines).top_inclusive ct "")) ∧
      countsOf ((buildTrie lines).top_inclusive ct "") =
        specTopCounts ct ((buildTrie lines).specMetrics (fun _ => true) Node.count_inclusive)) := by
  refine ⟨⟨?_, ?_⟩, ⟨?_, ?_⟩⟩
  · exact (topSpecNode Node.top_exclusive (fun _ => true) Node.count_exact
      top_exclusive_unfold (buildTrie lines) ct "").1
  · exact top_counts_eq Node.top_exclusive (fun _ => true) Node.count_exact
      top_exclusive_unfold (buildTrie lines) ct ""
  · exact (topSpecNode Node.top_inclusive (fun _ => true) Node.count_inclusive
      top_inclusive_unfold (buildTrie lines) ct "").1
  · exact top_counts_eq Node.top_inclusive (fun _ => true) Node.count_inclusive
      top_inclusive_unfold (buildTrie lines) ct ""

/-- C7: for every trie, every limit `ct` (including `ct = 0`, which yields an
empty result) and each of the three policies, the number of returned entries
is at most `ct` and at most the number of qualifying prefix nodes of the
trie (every non-root node for Exact and Heat, the fuzzy-qualifying non-root
nodes for Fuzzy). -/
theorem top_length_bounds (n : Node) (ct : Nat) (pre : String) :
    ((n.top_exclusive ct pre).length ≤ ct ∧
      (n.top_exclusive ct pre).length ≤
        (n.specMetrics (fun _ => true) Node.count_exact).length) ∧
    ((n.top_inclusive ct pre).length ≤ ct ∧
      (n.top_inclusive ct pre).length ≤
        (n.specMetrics (fun _ => true) Node.count_inclusive).length) ∧
    ((n.top_inclusive_filt ct pre).length ≤ ct ∧
      (n.top_inclusive_filt ct pre).length ≤
        (n.specMetrics fuzzyQualifies Node.count_inclusive).length) ∧
    (n.top_exclusive 0 pre = [] ∧ n.top_inclusive 0 pre = [] ∧
      n.top_inclusive_filt 0 pre = []) := by
  have h₁ := top_generic_length Node.top_exclusive (fun _ => true) Node.count_exact
    top_exclusive_unfold n ct pre
  have h₂ := top_generic_length Node.top_inclusive (fun _ => true) Node.count_inclusive
    top_inclusive_unfold n ct pre
  have h₃ := top_generic_length Node.top_inclusive_filt fuzzyQualifies Node.count_inclusive
    top_inclusive_filt_unfold n ct pre
  have h₁₀ := top_generic_length Node.top_exclusive (fun _ => true) Node.count_exact
    top_exclusive_unfold n 0 pre
  have h₂₀ := top_generic_length Node.top_inclusive (fun _ => true) Node.count_inclusive
    top_inclusive_unfold n 0 pre
  have h₃₀ := top_generic_length Node.top_inclusive_filt fuzzyQualifies Node.count_inclusive
    top_inclusive_filt_unfold n 0 pre
  rw [natMin_eq] at h₁ h₂ h₃ h₁₀ h₂₀ h₃₀
  refine ⟨⟨by omega, by omega⟩, ⟨by omega, by omega⟩, ⟨by omega, by omega⟩, ?_, ?_, ?_⟩
  · exact List.eq_nil_of_length_eq_zero (by omega)
  · exact List.eq_nil_of_length_eq_zero (by omega)
  · exact List.eq_nil_of_length_eq_zero (by omega)
